import Mathlib

/-!
Verification development for the quartz job-scheduling library (Go).

The Go sources are shallowly embedded as Lean definitions:

* Go `time.Time` and `time.Duration` are modelled as `Int` nanosecond
  counts; the Go zero `time.Time` is the integer `0`, and `IsZero()`
  is the test against `0` (the code uses the zero time as the "absent"
  sentinel).  Go `int64` arithmetic never comes close to overflow for
  any quantity considered here, so `Int` is used directly.
* Go integer division (`/` on `int64` and `time.Duration`) truncates
  toward zero, which is `Int.tdiv`.
* Go strings are modelled as `List Char` (`GoStr`); `strings.Compare`
  is `strCompare` below.
* Go maps are modelled as association lists keyed by the key string;
  `sync.Mutex` lock/unlock pairs are elided (all claims concern the
  sequential functional behaviour of single calls).
* Operations that can panic at runtime (a failing interface
  conversion, a nil-pointer dereference or an out-of-range slice
  expression) return `Option`, with `none` marking the panic; whole
  store calls return `GoOutcome`, whose `panic` and `deadlock`
  constructors mark a runtime panic and a self-deadlock on the store's
  non-reentrant mutex.
-/

namespace Quartz

/-- Go strings, as lists of characters. -/
abbrev GoStr := List Char

/-- Convert a Lean string literal to a `GoStr` (test-input helper). -/
def gs (s : String) : GoStr := s.toList

/-- The key separator character. -/
def dotChar : Char := '.'

/-- `strings.Compare` (lexicographic byte comparison returning -1/0/1). -/
def strCompare : GoStr → GoStr → Int
  | [], [] => 0
  | [], _ :: _ => -1
  | _ :: _, [] => 1
  | a :: as, b :: bs =>
    if a < b then -1 else if b < a then 1 else strCompare as bs

/-- Go `int64` division truncates toward zero. -/
def goDiv (a b : Int) : Int := Int.tdiv a b

/-! ## Trigger timing model (`simpleTrigger`, src/unnamed/part_000) -/

/-- `REPEAT_INDEFINITELY` sentinel. -/
def REPEAT_INDEFINITELY : Int := -1

/-- `time.Millisecond` in nanoseconds. -/
def millisecond : Int := 1000000

/-- `time.Second` in nanoseconds. -/
def second : Int := 1000000000

/-- `time.Hour` in nanoseconds. -/
def hour : Int := 3600 * second

/-- The schedule-state fields of `simpleTrigger` (identity and data-map
fields are omitted: `FireTimeAfter`, `FireTimeBefore` and
`FinalFireTime` never read them). -/
structure SimpleTrigger where
  startTime : Int
  endTime : Int
  repeatInterval : Int
  repeatCount : Int
  timesTriggered : Int
  complete : Bool
  deriving DecidableEq, Repr

namespace SimpleTrigger

/-- `simpleTrigger.FireTimeAfter`.  `now` stands for the value
`time.Now()` would return (used only when `afterTime` is the zero
time). -/
def FireTimeAfter (t : SimpleTrigger) (now afterTime : Int) : Int :=
  if t.complete then 0
  else if t.timesTriggered > t.repeatCount ∧ t.repeatCount ≠ REPEAT_INDEFINITELY then 0
  else
    let afterTime := if afterTime = 0 then now else afterTime
    if t.repeatCount = 0 ∧ afterTime > t.startTime then 0
    else if t.endTime ≠ 0 ∧ t.endTime < afterTime then 0
    else if afterTime < t.startTime then t.startTime
    else
      let numberOfTimesExecuted := goDiv (afterTime - t.startTime) t.repeatInterval + 1
      if numberOfTimesExecuted > t.repeatCount ∧ t.repeatCount ≠ REPEAT_INDEFINITELY then 0
      else
        let fireTime := t.startTime + numberOfTimesExecuted * t.repeatInterval
        if t.endTime < fireTime then 0 else fireTime

/-- `simpleTrigger.computeNumTimesFiredBetween`. -/
def computeNumTimesFiredBetween (t : SimpleTrigger) (start finish : Int) : Int :=
  if t.repeatInterval < millisecond then 0
  else goDiv (finish - start) t.repeatInterval

/-- `simpleTrigger.FireTimeBefore`. -/
def FireTimeBefore (t : SimpleTrigger) (endTime : Int) : Int :=
  if endTime < t.startTime then 0
  else
    let numFires := t.computeNumTimesFiredBetween t.startTime endTime
    t.startTime + numFires * t.repeatInterval

/-- `simpleTrigger.FinalFireTime`. -/
def FinalFireTime (t : SimpleTrigger) : Int :=
  if t.repeatCount = 0 then t.startTime
  else if t.repeatCount = REPEAT_INDEFINITELY then
    if t.endTime = 0 then 0
    else t.FireTimeBefore t.endTime
  else
    let lastTrigger := t.startTime + t.repeatCount * t.repeatInterval
    if t.endTime = 0 ∨ lastTrigger < t.endTime then lastTrigger
    else t.FireTimeBefore t.endTime

end SimpleTrigger

/-! ## Identity keys (src/job.go and src/unnamed/part_000)

`JobKey` and `TriggerKey` are byte slices holding `group ++ "." ++ name`;
`Name()`/`Group()` are recovered with `strings.Split(key, ".")`.  The Go
code indexes `Split(...)[1]`, which panics only for a key without a
separator; every key produced by the constructors contains one, so the
accessors below use a default instead of an `Option`. -/

/-- `DEFAULT_GROUP`. -/
def DEFAULT_GROUP : GoStr := gs "DEFAULT"

/-- `strings.Split(s, ".")`: split at every separator character. -/
def goSplitDot : GoStr → List GoStr
  | [] => [[]]
  | c :: rest =>
    if c = dotChar then [] :: goSplitDot rest
    else
      match goSplitDot rest with
      | [] => [[c]]
      | part :: parts => (c :: part) :: parts

/-- `JobKey` is a byte slice. -/
abbrev JobKey := GoStr

/-- `NewGroupJobKey`: `fmt.Sprintf("%s.%s", group, name)`. -/
def NewGroupJobKey (name group : GoStr) : JobKey := group ++ dotChar :: name

/-- `NewJobKey` (default group). -/
def NewJobKey (name : GoStr) : JobKey := NewGroupJobKey name DEFAULT_GROUP

/-- `JobKey.Name()`: second component of the split. -/
def JobKey.Name (key : JobKey) : GoStr := (goSplitDot key).getD 1 []

/-- `JobKey.Group()`: first component of the split. -/
def JobKey.Group (key : JobKey) : GoStr := (goSplitDot key).getD 0 []

/-- `JobKey.String()`: the underlying bytes. -/
def JobKey.Str (key : JobKey) : GoStr := key

/-- `JobKey.Equals`: `bytes.Equal`, i.e. content equality. -/
def JobKey.Equals (key other : JobKey) : Bool := key == other

/-- `TriggerKey` is a byte slice. -/
abbrev TriggerKey := GoStr

/-- `NewGroupTriggerKey`: `fmt.Sprintf("%s.%s", group, name)`. -/
def NewGroupTriggerKey (name group : GoStr) : TriggerKey := group ++ dotChar :: name

/-- `NewTriggerKey` (default group). -/
def NewTriggerKey (name : GoStr) : TriggerKey := NewGroupTriggerKey name DEFAULT_GROUP

/-- `TriggerKey.Name()`. -/
def TriggerKey.Name (key : TriggerKey) : GoStr := (goSplitDot key).getD 1 []

/-- `TriggerKey.Group()`. -/
def TriggerKey.Group (key : TriggerKey) : GoStr := (goSplitDot key).getD 0 []

/-- `TriggerKey.String()`: the underlying bytes. -/
def TriggerKey.Str (key : TriggerKey) : GoStr := key

/-- `TriggerKey.Equals`: `bytes.Equal`. -/
def TriggerKey.Equals (key other : TriggerKey) : Bool := key == other

theorem goSplitDot_ne_nil (s : GoStr) : goSplitDot s ≠ [] := by
  cases s with
  | nil => simp [goSplitDot]
  | cons c rest =>
    rw [goSplitDot]
    split
    · simp
    · split <;> simp

theorem goSplitDot_of_not_mem {s : GoStr} (h : dotChar ∉ s) : goSplitDot s = [s] := by
  induction s with
  | nil => rfl
  | cons c rest ih =>
    have hc : c ≠ dotChar := fun hc => h (hc ▸ List.mem_cons_self c rest)
    have hr : dotChar ∉ rest := fun hr => h (List.mem_cons_of_mem c hr)
    rw [goSplitDot, if_neg hc, ih hr]

theorem goSplitDot_append {g : GoStr} (n : GoStr) (h : dotChar ∉ g) :
    goSplitDot (g ++ dotChar :: n) = g :: goSplitDot n := by
  induction g with
  | nil => simp [goSplitDot]
  | cons c g ih =>
    have hc : c ≠ dotChar := fun hc => h (hc ▸ List.mem_cons_self c g)
    have hg : dotChar ∉ g := fun hg => h (List.mem_cons_of_mem c hg)
    rw [List.cons_append, goSplitDot, if_neg hc, ih hg]

/-- C9 counterexample: the round trip fails when the name contains the
separator.  `NewGroupJobKey("a.b", "g")` yields the key `"g.a.b"`, and
`Name()` returns `"a"`, not `"a.b"`. -/
theorem c9_roundtrip_fails_on_dotted_name :
    JobKey.Name (NewGroupJobKey (gs "a.b") (gs "g")) ≠ gs "a.b" := by decide

/-- C9 as amended: for every pair of strings in which neither component
contains the separator `"."`, the key round-trips — `Name()` returns the
name, `Group()` the group, `String()` is `group ++ "." ++ name` (this
last equation needs no restriction) — for job keys and trigger keys
alike; and under the same restriction two keys are `Equals` iff both
components are equal. -/
theorem c9_key_roundtrip (name group name2 group2 : GoStr)
    (hn : dotChar ∉ name) (hg : dotChar ∉ group)
    (hn2 : dotChar ∉ name2) (hg2 : dotChar ∉ group2) :
    JobKey.Name (NewGroupJobKey name group) = name ∧
    JobKey.Group (NewGroupJobKey name group) = group ∧
    JobKey.Str (NewGroupJobKey name group) = group ++ dotChar :: name ∧
    TriggerKey.Name (NewGroupTriggerKey name group) = name ∧
    TriggerKey.Group (NewGroupTriggerKey name group) = group ∧
    TriggerKey.Str (NewGroupTriggerKey name group) = group ++ dotChar :: name ∧
    (JobKey.Equals (NewGroupJobKey name group) (NewGroupJobKey name2 group2) = true ↔
      name = name2 ∧ group = group2) ∧
    (TriggerKey.Equals (NewGroupTriggerKey name group) (NewGroupTriggerKey name2 group2) = true ↔
      name = name2 ∧ group = group2) := by
  have hsplit : goSplitDot (group ++ dotChar :: name) = [group, name] := by
    rw [goSplitDot_append name hg, goSplitDot_of_not_mem hn]
  have hsplit2 : goSplitDot (group2 ++ dotChar :: name2) = [group2, name2] := by
    rw [goSplitDot_append name2 hg2, goSplitDot_of_not_mem hn2]
  have hinj : (group ++ dotChar :: name = group2 ++ dotChar :: name2) ↔
      (name = name2 ∧ group = group2) := by
    constructor
    · intro h
      have h2 : ([group, name] : List GoStr) = [group2, name2] := by
        rw [← hsplit, ← hsplit2, h]
      simp only [List.cons.injEq] at h2
      exact ⟨h2.2.1, h2.1⟩
    · rintro ⟨rfl, rfl⟩; rfl
  refine ⟨?_, ?_, rfl, ?_, ?_, rfl, ?_, ?_⟩
  · rw [JobKey.Name, NewGroupJobKey, hsplit]; rfl
  · rw [JobKey.Group, NewGroupJobKey, hsplit]; rfl
  · rw [TriggerKey.Name, NewGroupTriggerKey, hsplit]; rfl
  · rw [TriggerKey.Group, NewGroupTriggerKey, hsplit]; rfl
  · rw [JobKey.Equals, NewGroupJobKey, NewGroupJobKey, beq_iff_eq]; exact hinj
  · rw [TriggerKey.Equals, NewGroupTriggerKey, NewGroupTriggerKey, beq_iff_eq]; exact hinj

/-- Witness for C9 at concrete separator-free components. -/
theorem c9_key_roundtrip_witness :
    (dotChar ∉ gs "name" ∧ dotChar ∉ gs "group") ∧
    JobKey.Name (NewGroupJobKey (gs "name") (gs "group")) = gs "name" ∧
    JobKey.Group (NewGroupJobKey (gs "name") (gs "group")) = gs "group" := by
  have h := c9_key_roundtrip (gs "name") (gs "group") (gs "name") (gs "group")
    (by decide) (by decide) (by decide) (by decide)
  exact ⟨⟨by decide, by decide⟩, h.1, h.2.1⟩

/-! ## Value bag: `dirtyFlagMap` (src/unnamed/part_001)

The Go map `map[string]interface{}` is modelled as an association list
with distinct keys (hash order replaced by insertion order, which no
observable operation depends on: `Keys`, `Values` and `Entries` sort).
`interface{}` values are modelled by a small closed variant with
decidable equality, matching Go's `!=` on comparable values. -/

/-- Values stored in a data map. -/
inductive GoVal where
  | str (s : GoStr)
  | int (n : Int)
  deriving DecidableEq, Repr

/-- Go map read: `v, exists := m[k]`. -/
def mapGet : List (GoStr × GoVal) → GoStr → Option GoVal
  | [], _ => none
  | p :: rest, k => if p.1 = k then some p.2 else mapGet rest k

/-- Go `delete(m, k)`. -/
def mapErase : List (GoStr × GoVal) → GoStr → List (GoStr × GoVal)
  | [], _ => []
  | p :: rest, k => if p.1 = k then rest else p :: mapErase rest k

/-- Go map write `m[k] = v` (update in place, or add when absent). -/
def mapUpdate : List (GoStr × GoVal) → GoStr → GoVal → List (GoStr × GoVal)
  | [], k, v => [(k, v)]
  | p :: rest, k, v => if p.1 = k then (k, v) :: rest else p :: mapUpdate rest k v

/-- `dirtyFlagMap`. -/
structure DirtyFlagMap where
  entries : List (GoStr × GoVal)
  dirty : Bool
  deriving DecidableEq, Repr

/-- `NewDirtyFlagMap()`. -/
def NewDirtyFlagMap : DirtyFlagMap := ⟨[], false⟩

/-- `dirtyFlagMap.Put`: write and mark dirty unless the key already
holds the same value. -/
def DirtyFlagMap.Put (m : DirtyFlagMap) (k : GoStr) (v : GoVal) : DirtyFlagMap :=
  if mapGet m.entries k = some v then m
  else { entries := mapUpdate m.entries k v, dirty := true }

/-- `dirtyFlagMap.Remove`: delete, mark dirty if the key existed, and
return the previous value. -/
def DirtyFlagMap.Remove (m : DirtyFlagMap) (k : GoStr) : DirtyFlagMap × Option GoVal :=
  let value := mapGet m.entries k
  ({ entries := mapErase m.entries k,
     dirty := if value.isSome then true else m.dirty }, value)

/-- `dirtyFlagMap.Get`. -/
def DirtyFlagMap.Get (m : DirtyFlagMap) (k : GoStr) : Option GoVal := mapGet m.entries k

/-- `dirtyFlagMap.ClearDirtyFlag`. -/
def DirtyFlagMap.ClearDirtyFlag (m : DirtyFlagMap) : DirtyFlagMap := { m with dirty := false }

/-- Sorted insertion used to model the sorted iteration of `Keys()`. -/
def insertByKey (p : GoStr × GoVal) : List (GoStr × GoVal) → List (GoStr × GoVal)
  | [] => [p]
  | q :: rest =>
    if strCompare p.1 q.1 ≤ 0 then p :: q :: rest else q :: insertByKey p rest

/-- Entries in ascending key order (`Keys()` sorts before iterating). -/
def sortByKey (l : List (GoStr × GoVal)) : List (GoStr × GoVal) := l.foldr insertByKey []

/-- `dirtyFlagMap.Entries()`: one `mapEntry` per key, ascending. -/
def DirtyFlagMap.Entries (m : DirtyFlagMap) : List (GoStr × GoVal) := sortByKey m.entries

/-- `dirtyFlagMap.Clone`: fresh map seeded with the source's dirty flag,
then `Put` of every entry. -/
def DirtyFlagMap.Clone (m : DirtyFlagMap) : DirtyFlagMap :=
  m.Entries.foldl (fun acc p => acc.Put p.1 p.2) { entries := [], dirty := m.dirty }

/-! Reference-level model for storage independence: a heap of maps,
`Clone` allocating a fresh cell (Go's `make(map[string]interface{})`). -/

/-- A heap of dirty-flag maps; references are indices. -/
abbrev World := List DirtyFlagMap

/-- Dereference (out-of-range yields an empty map; theorems restrict to
valid references). -/
def worldGet (w : World) (r : Nat) : DirtyFlagMap := w.getD r NewDirtyFlagMap

/-- `Clone` through a reference: allocates a fresh cell. -/
def worldClone (w : World) (r : Nat) : World × Nat :=
  (w ++ [(worldGet w r).Clone], w.length)

/-- `Put` through a reference. -/
def worldPut (w : World) (r : Nat) (k : GoStr) (v : GoVal) : World :=
  w.set r ((worldGet w r).Put k v)

/-- `Remove` through a reference. -/
def worldRemove (w : World) (r : Nat) (k : GoStr) : World :=
  w.set r ((worldGet w r).Remove k).1

theorem insertByKey_perm (p : GoStr × GoVal) (l : List (GoStr × GoVal)) :
    List.Perm (insertByKey p l) (p :: l) := by
  induction l with
  | nil => rfl
  | cons q rest ih =>
    rw [insertByKey]
    split
    · rfl
    · exact ((ih.cons q).trans (List.Perm.swap p q rest))

theorem sortByKey_perm (l : List (GoStr × GoVal)) : List.Perm (sortByKey l) l := by
  induction l with
  | nil => rfl
  | cons p rest ih => exact (insertByKey_perm p (sortByKey rest)).trans (ih.cons p)

theorem mapGet_eq_none_of_not_mem {l : List (GoStr × GoVal)} {k : GoStr}
    (h : k ∉ l.map Prod.fst) : mapGet l k = none := by
  induction l with
  | nil => rfl
  | cons p rest ih =>
    rw [mapGet, if_neg, ih]
    · intro hm; exact h (List.mem_cons_of_mem _ hm)
    · intro he; exact h (he ▸ List.mem_cons_self _ _)

theorem mapGet_congr_perm {l l' : List (GoStr × GoVal)} (hp : List.Perm l l')
    (hnd : (l.map Prod.fst).Nodup) (k : GoStr) : mapGet l k = mapGet l' k := by
  induction hp with
  | nil => rfl
  | cons p _ ih =>
    rw [mapGet, mapGet]
    rw [List.map_cons, List.nodup_cons] at hnd
    split
    · rfl
    · exact ih hnd.2
  | swap p q rest =>
    rw [mapGet, mapGet, mapGet, mapGet]
    rw [List.map_cons, List.map_cons, List.nodup_cons, List.nodup_cons,
      List.mem_cons] at hnd
    by_cases hq : q.1 = k <;> by_cases hp1 : p.1 = k
    · exact absurd (hq.trans hp1.symm) (fun he => hnd.1 (Or.inl he))
    · rw [if_pos hq, if_neg hp1, if_pos hq]
    · rw [if_neg hq, if_pos hp1, if_pos hp1]
    · rw [if_neg hq, if_neg hp1, if_neg hp1, if_neg hq]
  | trans h1 _ ih1 ih2 =>
    exact (ih1 hnd).trans (ih2 ((h1.map Prod.fst).nodup_iff.mp hnd))

theorem mapGet_append (l1 l2 : List (GoStr × GoVal)) (k : GoStr) :
    mapGet (l1 ++ l2) k = (mapGet l1 k).or (mapGet l2 k) := by
  induction l1 with
  | nil => simp [mapGet]
  | cons p rest ih =>
    rw [List.cons_append, mapGet, mapGet]
    split
    · rfl
    · exact ih

theorem mapUpdate_of_get_none {l : List (GoStr × GoVal)} {k : GoStr} (v : GoVal)
    (h : mapGet l k = none) : mapUpdate l k v = l ++ [(k, v)] := by
  induction l with
  | nil => rfl
  | cons p rest ih =>
    rw [mapGet] at h
    rw [mapUpdate]
    split
    · rename_i he
      rw [if_pos he] at h
      exact absurd h (by simp)
    · rename_i he
      rw [if_neg he] at h
      rw [List.cons_append, ih h]

theorem put_dirty_mono (m : DirtyFlagMap) (k : GoStr) (v : GoVal)
    (h : m.dirty = true) : (m.Put k v).dirty = true := by
  rw [DirtyFlagMap.Put]
  split
  · exact h
  · rfl

theorem foldPut_dirty_mono (es : List (GoStr × GoVal)) (acc : DirtyFlagMap)
    (h : acc.dirty = true) :
    (es.foldl (fun a p => a.Put p.1 p.2) acc).dirty = true := by
  induction es generalizing acc with
  | nil => exact h
  | cons p rest ih => exact ih _ (put_dirty_mono acc p.1 p.2 h)

theorem foldPut_get (es : List (GoStr × GoVal)) (acc : DirtyFlagMap)
    (hnd : (es.map Prod.fst).Nodup)
    (hdis : ∀ k, k ∈ es.map Prod.fst → mapGet acc.entries k = none) (k : GoStr) :
    mapGet (es.foldl (fun a p => a.Put p.1 p.2) acc).entries k =
      (mapGet es k).or (mapGet acc.entries k) := by
  induction es generalizing acc with
  | nil => simp [mapGet]
  | cons p rest ih =>
    rw [List.map_cons, List.nodup_cons] at hnd
    have hp : mapGet acc.entries p.1 = none :=
      hdis p.1 (List.mem_cons_self _ _)
    have hput : (acc.Put p.1 p.2).entries = acc.entries ++ [(p.1, p.2)] := by
      rw [DirtyFlagMap.Put, if_neg (by rw [hp]; simp)]
      exact mapUpdate_of_get_none p.2 hp
    rw [List.foldl_cons, ih (acc.Put p.1 p.2) hnd.2 ?hdis]
    case hdis =>
      intro k' hk'
      rw [hput, mapGet_append, hdis k' (List.mem_cons_of_mem _ hk')]
      have : ¬p.1 = k' := fun he => hnd.1 (he ▸ hk')
      simp [mapGet, this]
    rw [hput, mapGet_append]
    by_cases hpk : p.1 = k
    · have hrest : mapGet rest k = none :=
        mapGet_eq_none_of_not_mem (fun hm => hnd.1 (hpk ▸ hm))
      have hacc : mapGet acc.entries k = none := hpk ▸ hp
      simp [mapGet, hrest, hacc, hpk]
    · simp [mapGet, hpk]

theorem clone_get (m : DirtyFlagMap) (hnd : (m.entries.map Prod.fst).Nodup)
    (k : GoStr) : (m.Clone).Get k = m.Get k := by
  have hperm := sortByKey_perm m.entries
  have hnds : ((sortByKey m.entries).map Prod.fst).Nodup :=
    ((hperm.map Prod.fst).nodup_iff).mpr hnd
  have hfold := foldPut_get (sortByKey m.entries) { entries := [], dirty := m.dirty }
    hnds (fun k' _ => rfl) k
  rw [DirtyFlagMap.Clone, DirtyFlagMap.Entries, DirtyFlagMap.Get, DirtyFlagMap.Get, hfold]
  simp only [mapGet, Option.or_none]
  exact mapGet_congr_perm hperm hnds k

theorem clone_dirty (m : DirtyFlagMap) :
    (m.Clone).dirty = (m.dirty || !m.entries.isEmpty) := by
  rw [DirtyFlagMap.Clone, DirtyFlagMap.Entries]
  cases hs : sortByKey m.entries with
  | nil =>
    have hlen := (sortByKey_perm m.entries).length_eq
    rw [hs] at hlen
    have he : m.entries = [] := List.length_eq_zero.mp hlen.symm
    rw [he]
    simp
  | cons q rest =>
    have hlen := (sortByKey_perm m.entries).length_eq
    rw [hs] at hlen
    have hne : ¬m.entries.isEmpty := by
      cases he2 : m.entries with
      | nil => rw [he2] at hlen; simp at hlen
      | cons _ _ => simp
    rw [List.foldl_cons]
    have hdq : ((DirtyFlagMap.Put { entries := [], dirty := m.dirty } q.1 q.2)).dirty = true := by
      rw [DirtyFlagMap.Put, if_neg (by simp [mapGet])]
    rw [foldPut_dirty_mono rest _ hdq]
    simp [hne]

theorem getRef_set_ne (w : World) (i j : Nat) (m : DirtyFlagMap) (h : i ≠ j) :
    worldGet (w.set i m) j = worldGet w j := by
  rw [worldGet, worldGet, List.getD_eq_getElem?_getD,
    List.getD_eq_getElem?_getD, List.getElem?_set_ne h]

/-- C8 counterexample: `Clone` does not preserve the dirty flag.  For
the non-empty map `{"key": "value"}` with a clear dirty flag (exactly
the situation after `ClearDirtyFlag`, and the literal the repository's
own test clones), the clone's flag is `true`, because the `Put` calls
that copy the entries mark the fresh map dirty.  The repository's test
asserts this behaviour, so it is the accepted behaviour of the code. -/
theorem c8_clone_dirty_flag_not_preserved :
    (({ entries := [(gs "key", GoVal.str (gs "value"))],
        dirty := false : DirtyFlagMap }).Clone.dirty = true) ∧
    ({ entries := [(gs "key", GoVal.str (gs "value"))],
       dirty := false : DirtyFlagMap }).dirty = false := by
  exact ⟨by decide, rfl⟩

/-- C8 as amended: for every dirty-flag map with distinct keys,
`Clone` returns a map with the same entries (`Get` agrees on every
key); its dirty flag equals the original's for an empty map and is
always `true` for a non-empty one (the entry-copying `Put` calls mark
it); and the clone's backing storage is freshly allocated, so `Put` or
`Remove` through the clone's reference leaves the original untouched
and vice versa (heap model: `Clone` allocates a new cell). -/
theorem c8_clone_same_entries_fresh_storage (m : DirtyFlagMap)
    (hnd : (m.entries.map Prod.fst).Nodup) :
    (∀ k, (m.Clone).Get k = m.Get k) ∧
    (m.Clone).dirty = (m.dirty || !m.entries.isEmpty) ∧
    (∀ (w : World) (r : Nat) (k : GoStr) (v : GoVal), r < w.length →
      (worldClone w r).2 ≠ r ∧
      worldGet (worldPut (worldClone w r).1 (worldClone w r).2 k v) r =
        worldGet (worldClone w r).1 r ∧
      worldGet (worldRemove (worldClone w r).1 (worldClone w r).2 k) r =
        worldGet (worldClone w r).1 r ∧
      worldGet (worldPut (worldClone w r).1 r k v) (worldClone w r).2 =
        worldGet (worldClone w r).1 (worldClone w r).2 ∧
      worldGet (worldRemove (worldClone w r).1 r k) (worldClone w r).2 =
        worldGet (worldClone w r).1 (worldClone w r).2) := by
  refine ⟨clone_get m hnd, clone_dirty m, ?_⟩
  intro w r k v hr
  have hne : (worldClone w r).2 ≠ r := by
    rw [worldClone]
    omega
  refine ⟨hne, getRef_set_ne _ _ _ _ hne, getRef_set_ne _ _ _ _ hne,
    getRef_set_ne _ _ _ _ (Ne.symm hne), getRef_set_ne _ _ _ _ (Ne.symm hne)⟩

/-- Witness for C8's amended theorem on a concrete two-entry map. -/
theorem c8_clone_same_entries_fresh_storage_witness :
    ((({ entries := [(gs "a", GoVal.int 1), (gs "b", GoVal.int 2)],
         dirty := true : DirtyFlagMap }).entries.map Prod.fst).Nodup) ∧
    (({ entries := [(gs "a", GoVal.int 1), (gs "b", GoVal.int 2)],
        dirty := true : DirtyFlagMap }).Clone.Get (gs "a") =
      some (GoVal.int 1)) ∧
    (({ entries := [(gs "a", GoVal.int 1), (gs "b", GoVal.int 2)],
        dirty := true : DirtyFlagMap }).Clone.dirty = true) := by
  have h := c8_clone_same_entries_fresh_storage
    { entries := [(gs "a", GoVal.int 1), (gs "b", GoVal.int 2)], dirty := true }
    (by decide)
  refine ⟨by decide, ?_, ?_⟩
  · rw [h.1 (gs "a")]
    decide
  · rw [h.2.1]
    decide

/-! ## Ordered trigger index: `treeSet` (src/unnamed/part_001)

`treeSet` keeps a slice sorted by a caller-supplied `CompareFunc` and
uses Go `sort.Search` (binary search over `[0, n)`) for insertion,
removal and membership.  The debug `fmt.Printf` in `Add` has no effect
on the data and is elided. -/

/-- Go `sort.Search` inner loop: invariant `f` false on `[0, i)`,
true on `[j, n)`.  The loop halves `j - i` each iteration, so it makes
at most `j - i` steps; `fuel` bounds the iteration count (structural
recursion so that the kernel can evaluate it), and every caller passes
enough fuel for the result to be exactly Go's. -/
def goSearchAux (f : Nat → Bool) : Nat → Nat → Nat → Nat
  | 0, i, _ => i
  | fuel + 1, i, j =>
    if i < j then
      if f ((i + j) / 2) then goSearchAux f fuel i ((i + j) / 2)
      else goSearchAux f fuel ((i + j) / 2 + 1) j
    else i

/-- Go `sort.Search(n, f)`. -/
def goSearch (n : Nat) (f : Nat → Bool) : Nat := goSearchAux f n 0 n

variable {A : Type}

/-- The predicate `treeSet` hands to `sort.Search`:
`compare(item, s.items[i]) <= 0`.  Out-of-range reads cannot happen in
`sort.Search`, so the default element is immaterial; taking `x` itself
makes the predicate monotone beyond the range. -/
def tsPred (cmp : A → A → Int) (items : List A) (x : A) (i : Nat) : Bool :=
  decide (cmp x (items.getD i x) ≤ 0)

/-- The local `n := sort.Search(len(s.items), ...)` of the `treeSet`
methods. -/
def tsIdx (cmp : A → A → Int) (items : List A) (x : A) : Nat :=
  goSearch items.length (tsPred cmp items x)

/-- `treeSet.Contains`. -/
def tsContains (cmp : A → A → Int) (items : List A) (x : A) : Bool :=
  decide (tsIdx cmp items x < items.length) &&
    decide (cmp (items.getD (tsIdx cmp items x) x) x = 0)

/-- `treeSet.Add`: insert in comparator position; no-op when an
element comparator-equal to `x` sits at the insertion point. -/
def tsAdd (cmp : A → A → Int) (items : List A) (x : A) : List A :=
  if tsIdx cmp items x = items.length then items ++ [x]
  else if cmp x (items.getD (tsIdx cmp items x) x) ≠ 0 then
    items.take (tsIdx cmp items x) ++ x :: items.drop (tsIdx cmp items x)
  else items

/-- `treeSet.Remove`: remove the comparator-equal element found by the
search, reporting whether one was found. -/
def tsRemove (cmp : A → A → Int) (items : List A) (x : A) : List A × Bool :=
  if tsIdx cmp items x < items.length ∧
      cmp (items.getD (tsIdx cmp items x) x) x = 0 then
    (items.take (tsIdx cmp items x) ++ items.drop (tsIdx cmp items x + 1), true)
  else (items, false)

/-- The comparator laws `strings.Compare`-style comparators satisfy:
reflexively zero, antisymmetric, and transitively compatible. -/
def LawfulCmp (cmp : A → A → Int) : Prop :=
  (∀ a, cmp a a = 0) ∧
  (∀ a b, cmp a b = -cmp b a) ∧
  (∀ a b c, cmp a b ≤ 0 → cmp b c ≤ 0 → cmp a c ≤ 0)

/-- Sorted in comparator order (the enumeration-order contract of the
index: `Less` is `compare <= 0`). -/
def tsSorted (cmp : A → A → Int) (l : List A) : Prop :=
  l.Pairwise (fun a b => cmp a b ≤ 0)

theorem goSearchAux_spec (f : Nat → Bool)
    (hmono : ∀ p q : Nat, p ≤ q → f p = true → f q = true) :
    ∀ fuel i j, j - i ≤ fuel → i ≤ j →
      i ≤ goSearchAux f fuel i j ∧ goSearchAux f fuel i j ≤ j ∧
      (∀ k, i ≤ k → k < goSearchAux f fuel i j → f k = false) ∧
      (∀ k, goSearchAux f fuel i j ≤ k → k < j → f k = true) := by
  intro fuel
  induction fuel with
  | zero =>
    intro i j hd hij
    rw [goSearchAux]
    exact ⟨le_rfl, by omega, fun k h1 h2 => by omega, fun k h1 h2 => by omega⟩
  | succ d ih =>
    intro i j hd hij
    rw [goSearchAux]
    by_cases hlt : i < j
    · rw [if_pos hlt]
      by_cases hf : f ((i + j) / 2) = true
      · rw [if_pos hf]
        obtain ⟨s1, s2, s3, s4⟩ := ih i ((i + j) / 2) (by omega) (by omega)
        refine ⟨s1, by omega, s3, ?_⟩
        intro k h1 h2
        by_cases hk : k < (i + j) / 2
        · exact s4 k h1 hk
        · exact hmono ((i + j) / 2) k (by omega) hf
      · rw [if_neg hf]
        obtain ⟨s1, s2, s3, s4⟩ := ih ((i + j) / 2 + 1) j (by omega) (by omega)
        refine ⟨by omega, s2, ?_, s4⟩
        intro k h1 h2
        by_cases hk : k ≤ (i + j) / 2
        · cases hb : f k with
          | false => rfl
          | true => exact absurd (hmono k ((i + j) / 2) hk hb) hf
        · exact s3 k (by omega) h2
    · rw [if_neg hlt]
      exact ⟨le_rfl, hij, fun k h1 h2 => by omega, fun k h1 h2 => by omega⟩

theorem tsPred_mono {cmp : A → A → Int} (hlaw : LawfulCmp cmp) {l : List A}
    (hs : tsSorted cmp l) (x : A) :
    ∀ p q : Nat, p ≤ q → tsPred cmp l x p = true → tsPred cmp l x q = true := by
  intro p q hpq hp
  rw [tsPred, decide_eq_true_iff] at hp
  rw [tsPred, decide_eq_true_iff]
  by_cases hq : q < l.length
  · have hpl : p < l.length := by omega
    rw [List.getD_eq_getElem l x hpl] at hp
    rw [List.getD_eq_getElem l x hq]
    rcases Nat.lt_or_ge p q with hlt | hge
    · have hpair := List.pairwise_iff_getElem.mp hs p q hpl hq hlt
      exact hlaw.2.2 _ _ _ hp hpair
    · have : p = q := by omega
      subst this
      exact hp
  · rw [List.getD_eq_default l x (by omega)]
    rw [hlaw.1 x]

theorem goSearchAux_bounds (f : Nat → Bool) :
    ∀ fuel i j, i ≤ j → i ≤ goSearchAux f fuel i j ∧ goSearchAux f fuel i j ≤ j := by
  intro fuel
  induction fuel with
  | zero =>
    intro i j hij
    rw [goSearchAux]
    omega
  | succ d ih =>
    intro i j hij
    rw [goSearchAux]
    by_cases hlt : i < j
    · rw [if_pos hlt]
      by_cases hf : f ((i + j) / 2) = true
      · rw [if_pos hf]
        have := ih i ((i + j) / 2) (by omega)
        omega
      · rw [if_neg hf]
        have := ih ((i + j) / 2 + 1) j (by omega)
        omega
    · rw [if_neg hlt]
      omega

theorem tsIdx_le (cmp : A → A → Int) (l : List A) (x : A) :
    tsIdx cmp l x ≤ l.length :=
  (goSearchAux_bounds (tsPred cmp l x) l.length 0 l.length (Nat.zero_le _)).2

/-- What the binary search guarantees on a sorted list: everything
before the found index is strictly below `x`, everything from it on is
at or above `x` (in comparator order). -/
theorem tsIdx_spec {cmp : A → A → Int} (hlaw : LawfulCmp cmp) {l : List A}
    (hs : tsSorted cmp l) (x : A) :
    (∀ k, ∀ hk : k < l.length, k < tsIdx cmp l x → cmp l[k] x < 0) ∧
    (∀ k, ∀ hk : k < l.length, tsIdx cmp l x ≤ k → cmp x l[k] ≤ 0) := by
  obtain ⟨s1, s2, s3, s4⟩ := goSearchAux_spec (tsPred cmp l x)
    (tsPred_mono hlaw hs x) l.length 0 l.length (by omega) (Nat.zero_le _)
  constructor
  · intro k hk hlt
    have h3 := s3 k (Nat.zero_le _) hlt
    rw [tsPred, decide_eq_false_iff_not, List.getD_eq_getElem l x hk] at h3
    push_neg at h3
    have h2 := hlaw.2.1 (l[k]) x
    omega
  · intro k hk hge
    have h4 := s4 k hge hk
    rw [tsPred, decide_eq_true_iff, List.getD_eq_getElem l x hk] at h4
    exact h4

theorem tsAdd_sorted {cmp : A → A → Int} (hlaw : LawfulCmp cmp) {l : List A}
    (hs : tsSorted cmp l) (x : A) : tsSorted cmp (tsAdd cmp l x) := by
  obtain ⟨hbef, haft⟩ := tsIdx_spec hlaw hs x
  rw [tsAdd]
  by_cases hn : tsIdx cmp l x = l.length
  · rw [if_pos hn]
    rw [tsSorted, List.pairwise_append]
    refine ⟨hs, List.pairwise_singleton _ _, ?_⟩
    intro a ha b hb
    rw [List.mem_singleton] at hb
    subst hb
    obtain ⟨k, hk, rfl⟩ := List.mem_iff_getElem.mp ha
    have hb2 := hbef k hk (by omega)
    omega
  · rw [if_neg hn]
    have hrlt : tsIdx cmp l x < l.length := by
      have := tsIdx_le cmp l x
      omega
    by_cases hne : cmp x (l.getD (tsIdx cmp l x) x) ≠ 0
    · rw [if_pos hne]
      rw [tsSorted, List.pairwise_append]
      refine ⟨hs.sublist (List.take_sublist _ _), ?_, ?_⟩
      · rw [List.pairwise_cons]
        refine ⟨?_, hs.sublist (List.drop_sublist _ _)⟩
        intro b hb
        obtain ⟨k, hk, rfl⟩ := List.mem_iff_getElem.mp hb
        have hlen : tsIdx cmp l x + k < l.length := by
          rw [List.length_drop] at hk
          omega
        rw [List.getElem_drop]
        exact haft (tsIdx cmp l x + k) hlen (by omega)
      · intro a ha b hb
        obtain ⟨k, hk, rfl⟩ := List.mem_iff_getElem.mp ha
        have hklen : k < l.length := by
          rw [List.length_take] at hk
          omega
        have hkr : k < tsIdx cmp l x := by
          rw [List.length_take] at hk
          omega
        rw [List.getElem_take l]
        rw [List.mem_cons] at hb
        rcases hb with rfl | hb
        · have hb2 := hbef k hklen hkr
          omega
        · obtain ⟨k2, hk2, rfl⟩ := List.mem_iff_getElem.mp hb
          have hlen2 : tsIdx cmp l x + k2 < l.length := by
            rw [List.length_drop] at hk2
            omega
          rw [List.getElem_drop]
          exact List.pairwise_iff_getElem.mp hs k (tsIdx cmp l x + k2) hklen hlen2
            (by omega)
    · rw [if_neg hne]
      exact hs

theorem tsAdd_noop {cmp : A → A → Int} (hlaw : LawfulCmp cmp) {l : List A}
    (hs : tsSorted cmp l) {x : A} {k : Nat} (hk : k < l.length)
    (heq : cmp x l[k] = 0) : tsAdd cmp l x = l := by
  obtain ⟨hbef, haft⟩ := tsIdx_spec hlaw hs x
  have hrk : tsIdx cmp l x ≤ k := by
    by_contra hcon
    push_neg at hcon
    have hb := hbef k hk hcon
    have h2 := hlaw.2.1 (l[k]) x
    omega
  have hrlt : tsIdx cmp l x < l.length := by omega
  have hle := haft (tsIdx cmp l x) hrlt le_rfl
  have heq2 : cmp x (l[tsIdx cmp l x]) = 0 := by
    by_cases hrk2 : tsIdx cmp l x = k
    · simp only [hrk2]
      exact heq
    · have hlt2 : tsIdx cmp l x < k := by omega
      have hpair := List.pairwise_iff_getElem.mp hs (tsIdx cmp l x) k hrlt hk hlt2
      have hkx : cmp (l[k]) x ≤ 0 := by
        have := hlaw.2.1 (l[k]) x
        omega
      have htr := hlaw.2.2 (l[tsIdx cmp l x]) (l[k]) x hpair hkx
      have hneg := hlaw.2.1 (l[tsIdx cmp l x]) x
      omega
  rw [tsAdd, if_neg (by omega), if_neg ?hcond]
  case hcond =>
    rw [List.getD_eq_getElem l x hrlt]
    simp [heq2]

theorem tsAdd_mem_or (cmp : A → A → Int) (l : List A) (x : A) :
    x ∈ tsAdd cmp l x ∨
    (tsAdd cmp l x = l ∧ ∃ k, ∃ hk : k < l.length, cmp x l[k] = 0) := by
  rw [tsAdd]
  by_cases h1 : tsIdx cmp l x = l.length
  · rw [if_pos h1]
    left
    exact List.mem_append_right _ (List.mem_singleton_self x)
  · rw [if_neg h1]
    have hrlt : tsIdx cmp l x < l.length := by
      have := tsIdx_le cmp l x
      omega
    by_cases h2 : cmp x (l.getD (tsIdx cmp l x) x) ≠ 0
    · rw [if_pos h2]
      left
      exact List.mem_append_right _ (List.mem_cons_self _ _)
    · rw [if_neg h2]
      right
      push_neg at h2
      rw [List.getD_eq_getElem l x hrlt] at h2
      exact ⟨rfl, tsIdx cmp l x, hrlt, h2⟩

theorem tsAdd_twice_length {cmp : A → A → Int} (hlaw : LawfulCmp cmp) {l : List A}
    (hs : tsSorted cmp l) (x : A) :
    (tsAdd cmp (tsAdd cmp l x) x).length = (tsAdd cmp l x).length := by
  rcases tsAdd_mem_or cmp l x with hmem | ⟨heq, k, hk, hcmp⟩
  · have hs2 := tsAdd_sorted hlaw hs x
    obtain ⟨k, hk, hxk⟩ := List.mem_iff_getElem.mp hmem
    have hz : cmp x ((tsAdd cmp l x)[k]) = 0 := by
      rw [hxk]
      exact hlaw.1 x
    rw [tsAdd_noop hlaw hs2 hk hz]
  · rw [heq, tsAdd_noop hlaw hs hk hcmp]

theorem tsRemove_sorted (cmp : A → A → Int) {l : List A}
    (hs : tsSorted cmp l) (x : A) : tsSorted cmp (tsRemove cmp l x).1 := by
  rw [tsRemove]
  split
  · have h1 : List.Sublist ((l.drop (tsIdx cmp l x)).drop 1) (l.drop (tsIdx cmp l x)) :=
      List.drop_sublist 1 (l.drop (tsIdx cmp l x))
    rw [List.drop_drop] at h1
    have h2 := List.Sublist.append_left
      (by simpa using h1 : List.Sublist (l.drop (tsIdx cmp l x + 1)) (l.drop (tsIdx cmp l x)))
      (l.take (tsIdx cmp l x))
    rw [List.take_append_drop] at h2
    exact hs.sublist h2
  · exact hs

/-- Applying a sequence of `Add` (`true`) and `Remove` (`false`)
operations to an initially empty index. -/
def tsApply (cmp : A → A → Int) (ops : List (Bool × A)) : List A :=
  ops.foldl
    (fun items op => if op.1 then tsAdd cmp items op.2 else (tsRemove cmp items op.2).1) []

theorem tsApply_sorted {cmp : A → A → Int} (hlaw : LawfulCmp cmp)
    (ops : List (Bool × A)) : tsSorted cmp (tsApply cmp ops) := by
  suffices H : ∀ (ops : List (Bool × A)) (l : List A), tsSorted cmp l →
      tsSorted cmp (ops.foldl
        (fun items op =>
          if op.1 then tsAdd cmp items op.2 else (tsRemove cmp items op.2).1) l) from
    H ops [] List.Pairwise.nil
  intro ops
  induction ops with
  | nil =>
    intro l hl
    exact hl
  | cons op rest ih =>
    intro l hl
    rw [List.foldl_cons]
    apply ih
    by_cases h : op.1 = true
    · rw [if_pos h]
      exact tsAdd_sorted hlaw hl op.2
    · rw [if_neg h]
      exact tsRemove_sorted cmp hl op.2

/-- C10: on a sorted index with a lawful comparator, `Add` of an
element comparator-equal to a present one is a no-op; in particular
adding the same element twice leaves the length the same as adding it
once; and after any sequence of `Add`/`Remove` operations starting
from the empty index the enumeration stays sorted consistently with
the comparator. -/
theorem c10_treeSet_dedup_and_sorted {A : Type} (cmp : A → A → Int)
    (hlaw : LawfulCmp cmp) :
    (∀ (l : List A) (x : A), tsSorted cmp l →
      (∃ k, ∃ hk : k < l.length, cmp x l[k] = 0) → tsAdd cmp l x = l) ∧
    (∀ (l : List A) (x : A), tsSorted cmp l →
      (tsAdd cmp (tsAdd cmp l x) x).length = (tsAdd cmp l x).length) ∧
    (∀ ops : List (Bool × A), tsSorted cmp (tsApply cmp ops)) := by
  refine ⟨?_, ?_, ?_⟩
  · intro l x hs hmem
    obtain ⟨k, hk, heq⟩ := hmem
    exact tsAdd_noop hlaw hs hk heq
  · intro l x hs
    exact tsAdd_twice_length hlaw hs x
  · intro ops
    exact tsApply_sorted hlaw ops

/-- A comparator in the style of `strings.Compare`, on integers
(used only to witness the treeSet theorem at a concrete type). -/
def intCmp (a b : Int) : Int := if a < b then -1 else if b < a then 1 else 0

theorem intCmp_lawful : LawfulCmp intCmp := by
  refine ⟨?_, ?_, ?_⟩
  · intro a
    rw [intCmp]
    split_ifs <;> omega
  · intro a b
    rw [intCmp, intCmp]
    split_ifs <;> omega
  · intro a b c
    rw [intCmp, intCmp, intCmp]
    split_ifs <;> omega

/-- Witness for C10 on a concrete sorted index of integers. -/
theorem c10_treeSet_dedup_and_sorted_witness :
    LawfulCmp intCmp ∧
    (tsAdd intCmp (tsAdd intCmp [(1 : Int), 3] 2) 2).length =
      (tsAdd intCmp [(1 : Int), 3] 2).length ∧
    tsSorted intCmp (tsApply intCmp [(true, (5 : Int)), (true, 2), (true, 5), (false, 2)]) :=
  ⟨intCmp_lawful,
    (c10_treeSet_dedup_and_sorted intCmp intCmp_lawful).2.1 [(1 : Int), 3] 2
      (by rw [tsSorted]; decide),
    (c10_treeSet_dedup_and_sorted intCmp intCmp_lawful).2.2 _⟩

/-! ## RAMJobStore (src/ramstore.go, first listing)

The store's Go maps become association lists keyed by the canonical
key string; keys are carried as `(group, name)` pairs (`SKey`), whose
`str` is the `group.name` form `Key().String()` returns, and whose
`group` is what `Key().Group()` returns for separator-free components
(the store is only ever used with such keys).  Wrappers are shared by
pointer between the indices in Go and the only post-insert mutation is
the `state` assignment at the end of `StoreTrigger`; the embedding
computes the state first and inserts the finished wrapper everywhere,
which is observationally identical between store calls.

Two whole-call failure modes are modelled by `GoOutcome`.  First, the
comparator `NewRAMJobStore` installs on `timeTriggers` asserts its
arguments to the 14-method `Trigger` interface
(`lhs.(Trigger).Key().String()`), but the only elements ever stored
are `*triggerWrapper`, which implements just `Key()` and `JobKey()`:
every comparator invocation is an interface-conversion panic, and
`sort.Search` invokes the comparator exactly when the index is
non-empty.  Second, the store's `sync.Mutex` is non-reentrant: a
method that takes the lock and then calls another locking method of
the same store blocks forever — `StoreTrigger` does so via
`RetrieveJob` (and via `removeTrigger` on its replace path), and
`removeTrigger`'s orphan branch does so via `TriggersForJob`.  The
single acquisition by the outermost call is elided. -/

/-- The states a trigger wrapper can be in. -/
inductive TriggerState where
  | WAITING
  | ACQUIRED
  | EXECUTING
  | COMPLETE
  | PAUSED
  | BLOCKED
  | PAUSED_BLOCKED
  | ERROR
  deriving DecidableEq, Repr

/-- A `(group, name)` key; `str` is `Key().String()`. -/
structure SKey where
  group : GoStr
  name : GoStr
  deriving DecidableEq, Repr

/-- `Key().String()`: the canonical `group.name` form. -/
def SKey.str (k : SKey) : GoStr := k.group ++ dotChar :: k.name

/-- The store-visible part of an `OperableTrigger`: its key and its
job's key (the store reads nothing else; the schedule payload rides
along unchanged through `Clone`). -/
structure TrigR where
  key : SKey
  jobKey : SKey
  deriving DecidableEq, Repr

/-- The store-visible part of a `JobDetail`: key and durability. -/
structure JobR where
  key : SKey
  durable : Bool
  deriving DecidableEq, Repr

/-- `jobWrapper`. -/
structure JobWrapper where
  jobDetail : JobR
  deriving DecidableEq, Repr

/-- `triggerWrapper` (zero value of `state` is `WAITING`). -/
structure TriggerWrapper where
  trigger : TrigR
  state : TriggerState
  deriving DecidableEq, Repr

/-- Go map read `v, exists := m[k]`, generic in the value type. -/
def alookup {B : Type} : List (GoStr × B) → GoStr → Option B
  | [], _ => none
  | p :: rest, k => if p.1 = k then some p.2 else alookup rest k

/-- Go map write `m[k] = v`. -/
def aput {B : Type} : List (GoStr × B) → GoStr → B → List (GoStr × B)
  | [], k, v => [(k, v)]
  | p :: rest, k, v => if p.1 = k then (k, v) :: rest else p :: aput rest k v

/-- Go `delete(m, k)`. -/
def aerase {B : Type} : List (GoStr × B) → GoStr → List (GoStr × B)
  | [], _ => []
  | p :: rest, k => if p.1 = k then rest else p :: aerase rest k

/-- `RAMJobStore` (the mutex itself carries no data; its non-reentrant
acquisition order is modelled in the operations below). -/
structure RAMJobStore where
  jobsByKey : List (GoStr × JobWrapper)
  triggersByKey : List (GoStr × TriggerWrapper)
  jobsByGroup : List (GoStr × List (GoStr × JobWrapper))
  triggersByGroup : List (GoStr × List (GoStr × TriggerWrapper))
  timeTriggers : List TriggerWrapper
  triggers : List TriggerWrapper
  pausedTriggerGroups : List GoStr
  pausedJobGroups : List GoStr
  blockedJobs : List GoStr
  deriving DecidableEq, Repr

/-- `NewRAMJobStore()`. -/
def NewRAMJobStore : RAMJobStore :=
  { jobsByKey := [], triggersByKey := [], jobsByGroup := [], triggersByGroup := [],
    timeTriggers := [], triggers := [], pausedTriggerGroups := [],
    pausedJobGroups := [], blockedJobs := [] }

/-- The errors the modelled operations can report. -/
inductive GoErr where
  | jobAlreadyExists (key : GoStr)
  | triggerAlreadyExists (key : GoStr)
  | jobPersistence (key : GoStr)
  deriving DecidableEq, Repr

/-- How a Go store call ends: a normal return, a runtime panic, or a
self-deadlock (the goroutine blocks forever re-acquiring the
non-reentrant `sync.Mutex` it already holds). -/
inductive GoOutcome (α : Type) where
  | ok (val : α)
  | panic
  | deadlock
  deriving DecidableEq, Repr

/-- `RAMJobStore.RetrieveJob` (the returned clone is a value here). -/
def RetrieveJob (s : RAMJobStore) (key : SKey) : Option JobR :=
  (alookup s.jobsByKey key.str).map (fun jw => jw.jobDetail)

/-- `RAMJobStore.CheckJobExists`. -/
def CheckJobExists (s : RAMJobStore) (key : SKey) : Bool :=
  (alookup s.jobsByKey key.str).isSome

/-- `RAMJobStore.CheckTriggerExists`. -/
def CheckTriggerExists (s : RAMJobStore) (key : SKey) : Bool :=
  (alookup s.triggersByKey key.str).isSome

/-- `RAMJobStore.TriggersForJob`: clones of the wrappers in `s.triggers`
whose job key equals `key` (byte equality of the key strings). -/
def TriggersForJob (s : RAMJobStore) (key : SKey) : List TrigR :=
  (s.triggers.filter (fun tw => tw.trigger.jobKey.str == key.str)).map
    (fun tw => tw.trigger)

/-- `RAMJobStore.StoreJob`: insert-or-update; the by-group and by-key
indices share the wrapper, so an update is visible through both. -/
def StoreJob (s : RAMJobStore) (jobDetail : JobR) (replaceExisting : Bool) :
    RAMJobStore × Option GoErr :=
  let grpMap := (alookup s.jobsByGroup jobDetail.key.group).getD []
  match alookup s.jobsByKey jobDetail.key.str with
  | some _ =>
    if !replaceExisting then (s, some (GoErr.jobAlreadyExists jobDetail.key.str))
    else
      ({ s with
         jobsByKey := aput s.jobsByKey jobDetail.key.str ⟨jobDetail⟩,
         jobsByGroup := aput s.jobsByGroup jobDetail.key.group
           (aput grpMap jobDetail.key.str ⟨jobDetail⟩) }, none)
  | none =>
    ({ s with
       jobsByKey := aput s.jobsByKey jobDetail.key.str ⟨jobDetail⟩,
       jobsByGroup := aput s.jobsByGroup jobDetail.key.group
         (aput grpMap jobDetail.key.str ⟨jobDetail⟩) }, none)

/-- `RAMJobStore.RemoveJob`: the body is an unimplemented stub — it
takes the lock and returns `(false, nil)` without touching anything. -/
def RemoveJob (s : RAMJobStore) (key : SKey) : RAMJobStore × Bool × Option GoErr :=
  (s, false, none)

/-- `timeTriggers.Remove(tw)`, where `tw` is the possibly-nil wrapper
the removal loop leaves behind.  On an empty set `sort.Search` returns
0 without calling the comparator and `Remove` short-circuits to
not-found.  On a non-empty set the very first comparator invocation
panics — `lhs.(Trigger)` is an interface conversion that fails for
every `*triggerWrapper`, nil or not — so the item is irrelevant. -/
def timeTriggersRemove (items : List TriggerWrapper)
    (_tw : Option TriggerWrapper) : Option (List TriggerWrapper × Bool) :=
  match items with
  | [] => some (items, false)
  | _ :: _ => none

/-- One in-place left shift of the slice backing array: cells
`[i, curLen-1)` receive the values of `[i+1, curLen)`; every other
cell keeps its old value (`append(s.triggers[:i], s.triggers[i+1:]...)`
reuses the backing array). -/
def shiftDel (arr : List TriggerWrapper) (i curLen : Nat) : List TriggerWrapper :=
  arr.take i ++ (arr.drop (i + 1)).take (curLen - (i + 1)) ++ arr.drop (curLen - 1)

/-- The removal loop of `removeTrigger`.  Go ranges over the slice
header captured at loop entry (its original length), while each
iteration whose wrapper key does NOT equal the target reassigns
`s.triggers = append(s.triggers[:i], s.triggers[i+1:]...)`: that
shifts the shared backing array in place (so later iterations read
shifted values), records the wrapper in `tw`, and panics (`none`) when
`i+1` exceeds the current length (`s.triggers[i+1:]` is then out of
range).  `steps` is the captured original length. -/
def removeLoop (keyStr : GoStr) :
    Nat → Nat → List TriggerWrapper → Nat → Option TriggerWrapper →
    Option (List TriggerWrapper × Nat × Option TriggerWrapper)
  | 0, _, arr, curLen, tw => some (arr, curLen, tw)
  | steps + 1, i, arr, curLen, tw =>
    match arr[i]? with
    | none => some (arr, curLen, tw)
    | some trigger =>
      if trigger.trigger.key.str == keyStr then
        removeLoop keyStr steps (i + 1) arr curLen tw
      else if curLen < i + 1 then none
      else removeLoop keyStr steps (i + 1) (shiftDel arr i curLen) (curLen - 1)
        (some trigger)

/-- The loop over `s.triggers`, started with the captured header. -/
def removeLoopGo (keyStr : GoStr) (triggers : List TriggerWrapper) :
    Option (List TriggerWrapper × Nat × Option TriggerWrapper) :=
  removeLoop keyStr triggers.length 0 triggers triggers.length none

/-- `RAMJobStore.removeTrigger` (the exported `RemoveTrigger` holds no
lock, so the single acquisition at the top is elided).  `.panic` marks
a runtime panic: an out-of-range slice expression in the loop, the
comparator's interface conversion in `timeTriggers.Remove` on a
non-empty index, or `tw.JobKey()` dereferencing the nil wrapper at the
start of the orphan check.  When the orphan check gets past that read
it calls `s.TriggersForJob`, which re-acquires the mutex this function
already holds: `.deadlock`.  Panic and deadlock leave the already
performed index mutations in place but the call never returns. -/
def removeTrigger (s : RAMJobStore) (key : SKey) (removeOrphanedJob : Bool) :
    GoOutcome (RAMJobStore × Bool) :=
  match alookup s.triggersByKey key.str with
  | none => GoOutcome.ok (s, false)
  | some _ =>
    let byKey := aerase s.triggersByKey key.str
    let byGroup :=
      match alookup s.triggersByGroup key.group with
      | some grpMap =>
        if grpMap.length > 0 then
          let grpMap2 := aerase grpMap key.str
          if grpMap2.length = 0 then aerase s.triggersByGroup key.group
          else aput s.triggersByGroup key.group grpMap2
        else s.triggersByGroup
      | none => s.triggersByGroup
    match removeLoopGo key.str s.triggers with
    | none => GoOutcome.panic
    | some (arr, curLen, twOpt) =>
      match timeTriggersRemove s.timeTriggers twOpt with
      | none => GoOutcome.panic
      | some (tt, _) =>
        if removeOrphanedJob then
          match twOpt with
          | none => GoOutcome.panic
          | some _ => GoOutcome.deadlock
        else
          GoOutcome.ok
            ({ s with
               triggersByKey := byKey
               triggersByGroup := byGroup
               triggers := arr.take curLen
               timeTriggers := tt }, true)

/-- `RAMJobStore.RemoveTrigger`. -/
def RemoveTrigger (s : RAMJobStore) (key : SKey) : GoOutcome (RAMJobStore × Bool) :=
  removeTrigger s key true

/-- `RAMJobStore.StoreTrigger`.  The function takes `s.lock` and keeps
it for its whole body.  The only path that returns is the
already-exists error without replace, reached before any nested call.
Every other path re-acquires the held non-reentrant mutex and blocks
forever: with `replaceExisting` it calls `s.removeTrigger`, whose
first statement is `s.lock.Lock()`; otherwise it reaches
`s.RetrieveJob`, which also locks.  The job-existence check, the
insertion into the indices and the state classification
(ramstore.go:191-221) are dead code: no execution gets past the nested
lock acquisition, so no trigger is ever stored and the
JobPersistenceError is never returned. -/
def StoreTrigger (s : RAMJobStore) (trigger : TrigR) (replaceExisting : Bool) :
    GoOutcome (RAMJobStore × Option GoErr) :=
  match alookup s.triggersByKey trigger.key.str with
  | some _ =>
    if !replaceExisting then
      GoOutcome.ok (s, some (GoErr.triggerAlreadyExists trigger.key.str))
    else GoOutcome.deadlock
  | none => GoOutcome.deadlock

/-- Waiting-index invariant of spec §3: `timeTriggers` holds exactly
the stored triggers whose wrapper state is `WAITING`. -/
def storeInvB (s : RAMJobStore) : Bool :=
  (s.triggersByKey.all fun p =>
    (p.2.state == TriggerState.WAITING) == s.timeTriggers.contains p.2) &&
  (s.timeTriggers.all fun tw =>
    alookup s.triggersByKey tw.trigger.key.str == some tw)

/-! Scenario fixtures for the store theorems. -/

/-- Key of job `j1` in the default group. -/
def kJ1 : SKey := ⟨gs "DEFAULT", gs "j1"⟩

/-- Key of job `j2` in the default group. -/
def kJ2 : SKey := ⟨gs "DEFAULT", gs "j2"⟩

/-- Key of trigger `ta`. -/
def kTA : SKey := ⟨gs "DEFAULT", gs "ta"⟩

/-- Key of trigger `tb`. -/
def kTB : SKey := ⟨gs "DEFAULT", gs "tb"⟩

/-- A store holding the single non-durable job `j1`. -/
def oneJobStore : RAMJobStore :=
  (StoreJob NewRAMJobStore ⟨kJ1, false⟩ false).1

/-- The wrapper for trigger `ta` on job `j1`, in state `WAITING` (the
zero value a freshly stored wrapper carries). -/
def twA : TriggerWrapper := ⟨⟨kTA, kJ1⟩, TriggerState.WAITING⟩

/-- The wrapper for trigger `tb` on job `j2`, in state `WAITING`. -/
def twB : TriggerWrapper := ⟨⟨kTB, kJ2⟩, TriggerState.WAITING⟩

/-- The state claim C3 hypothesizes, built directly as a store value:
non-durable job `j1` stored with its only trigger `ta`, `WAITING` and
in the ordered index, all indices consistent. -/
def oneTrigStore : RAMJobStore :=
  { jobsByKey := [(SKey.str kJ1, ⟨⟨kJ1, false⟩⟩)]
    jobsByGroup := [(gs "DEFAULT", [(SKey.str kJ1, ⟨⟨kJ1, false⟩⟩)])]
    triggersByKey := [(SKey.str kTA, twA)]
    triggersByGroup := [(gs "DEFAULT", [(SKey.str kTA, twA)])]
    timeTriggers := [twA]
    triggers := [twA]
    pausedTriggerGroups := []
    pausedJobGroups := []
    blockedJobs := [] }

/-- Same state with `j1` durable. -/
def oneTrigStoreDurable : RAMJobStore :=
  { jobsByKey := [(SKey.str kJ1, ⟨⟨kJ1, true⟩⟩)]
    jobsByGroup := [(gs "DEFAULT", [(SKey.str kJ1, ⟨⟨kJ1, true⟩⟩)])]
    triggersByKey := [(SKey.str kTA, twA)]
    triggersByGroup := [(gs "DEFAULT", [(SKey.str kTA, twA)])]
    timeTriggers := [twA]
    triggers := [twA]
    pausedTriggerGroups := []
    pausedJobGroups := []
    blockedJobs := [] }

/-- The state claims C4 and C5 hypothesize: jobs `j1`, `j2` stored
with trigger `ta` on `j1` and `tb` on `j2`, both `WAITING` and in the
ordered index. -/
def twoTrigStore : RAMJobStore :=
  { jobsByKey := [(SKey.str kJ1, ⟨⟨kJ1, false⟩⟩), (SKey.str kJ2, ⟨⟨kJ2, false⟩⟩)]
    jobsByGroup := [(gs "DEFAULT",
      [(SKey.str kJ1, ⟨⟨kJ1, false⟩⟩), (SKey.str kJ2, ⟨⟨kJ2, false⟩⟩)])]
    triggersByKey := [(SKey.str kTA, twA), (SKey.str kTB, twB)]
    triggersByGroup := [(gs "DEFAULT", [(SKey.str kTA, twA), (SKey.str kTB, twB)])]
    timeTriggers := [twA, twB]
    triggers := [twA, twB]
    pausedTriggerGroups := []
    pausedJobGroups := []
    blockedJobs := [] }

/-- C2: `RemoveJob` is an unimplemented stub.  With job `j1` stored,
`RemoveJob(j1)` reports not-found with a nil error and leaves the
store (hence the job) exactly as it was, where the claim requires the
job and its triggers to be removed with found reported. -/
theorem c2_removeJob_unimplemented :
    CheckJobExists oneJobStore kJ1 = true ∧
    RemoveJob oneJobStore kJ1 = (oneJobStore, false, none) ∧
    CheckJobExists (RemoveJob oneJobStore kJ1).1 kJ1 = true := by
  refine ⟨by decide, ?_, by decide⟩
  rw [RemoveJob]

/-- C3: removing the only trigger of a job panics instead of
cascading.  The loop in `removeTrigger` collects into `tw` only the
wrappers whose key does NOT equal the target, so with a single trigger
`tw` stays nil, and `timeTriggers.Remove(tw)` panics on the non-empty
index at the comparator's first interface conversion — for the
non-durable and the durable variant alike; and even absent the panic,
the cascade tests `Durable()` without negation and calls the
unimplemented `RemoveJob`, so `CheckJobExists` could never become
false. -/
theorem c3_removeTrigger_cascade_never_happens :
    CheckJobExists oneTrigStore kJ1 = true ∧
    CheckTriggerExists oneTrigStore kTA = true ∧
    RemoveTrigger oneTrigStore kTA = GoOutcome.panic ∧
    CheckJobExists oneTrigStoreDurable kJ1 = true ∧
    RemoveTrigger oneTrigStoreDurable kTA = GoOutcome.panic := by
  refine ⟨by decide, by decide, by decide, by decide, by decide⟩

/-- C4: `RemoveTrigger` does not remove only the trigger with key `k`
and leave the rest alone — it never completes, and what it mutates
first is the wrong triggers.  On the two-trigger state, the loop
condition `!trigger.Key().Equals(key)` picks the wrappers that should
stay: its result keeps `ta` as the list's survivor (`curLen = 1` over
an unshifted array, so the new `s.triggers` is `[ta]`, erasing the
unrelated job's `tb`) and hands `tb` to `timeTriggers.Remove`, whose
first comparator invocation then panics (`*triggerWrapper` does not
implement the `Trigger` interface the comparator asserts).  So the
call crashes after clobbering the unrelated trigger instead of
removing `ta` and leaving `tb` untouched. -/
theorem c4_removeTrigger_clobbers_other_triggers :
    removeLoopGo (SKey.str kTA) [twA, twB] = some ([twA, twB], 1, some twB) ∧
    RemoveTrigger twoTrigStore kTA = GoOutcome.panic := by
  refine ⟨by decide, by decide⟩

/-- C5: neither operation preserves the invariant, because neither
completes on a state that satisfies it.  The two-trigger state
satisfies the waiting-index invariant; `RemoveTrigger(ta)` panics in
the index comparator (after the loop has already selected the wrong
wrappers, see C4), and `StoreTrigger` of a fresh trigger — the
operation the claim says performs the state classification —
self-deadlocks in `RetrieveJob` before the classification code is
ever reached. -/
theorem c5_waiting_index_invariant_broken :
    storeInvB twoTrigStore = true ∧
    RemoveTrigger twoTrigStore kTA = GoOutcome.panic ∧
    StoreTrigger twoTrigStore ⟨⟨gs "DEFAULT", gs "tc"⟩, kJ1⟩ false =
      GoOutcome.deadlock := by
  refine ⟨by decide, by decide, by decide⟩

/-- C6: `StoreTrigger` never returns the JobPersistenceError the
claim requires.  Go's `StoreTrigger` takes `s.lock` and then calls
the exported `s.RetrieveJob`, which takes `s.lock` again; the mutex is
non-reentrant, so the call blocks forever before the missing-job check
is reached — with the claim's orphan trigger against the empty store,
and equally with the referenced job present. -/
theorem c6_storeTrigger_selfdeadlock :
    StoreTrigger NewRAMJobStore
      ⟨⟨gs "DEFAULT", gs "tx"⟩, ⟨gs "DEFAULT", gs "nojob"⟩⟩ false =
      GoOutcome.deadlock ∧
    StoreTrigger oneJobStore ⟨kTA, kJ1⟩ false = GoOutcome.deadlock := by
  refine ⟨rfl, by decide⟩

/-- Example trigger of claim C1: `startTime = T` (taken as 1000 s),
`repeatInterval = 10s`, `repeatCount = 2`, fresh (`timesTriggered = 0`,
not complete), no `endTime`. -/
def c1Trigger : SimpleTrigger :=
  { startTime := 1000 * second, endTime := 0, repeatInterval := 10 * second,
    repeatCount := 2, timesTriggered := 0, complete := false }

/-- C1: the claim fails on the code.  With no `endTime` set
(`endTime` is the zero time), `FireTimeAfter` correctly returns
`startTime` for `afterTime` before `startTime`, but for `afterTime` at
or after `startTime` it always returns the zero time (absent): the
final guard compares the candidate against `endTime` without first
checking `endTime.IsZero()`, and every candidate is after the zero
time.  The claimed values `FireTimeAfter(T) = T+10s` and
`FireTimeAfter(T+15s) = T+20s` therefore do not hold; the code returns
absent for both. -/
theorem c1_fireTimeAfter_missing_endTime_guard :
    c1Trigger.FireTimeAfter 0 (1000 * second - second) = 1000 * second ∧
    c1Trigger.FireTimeAfter 0 (1000 * second) = 0 ∧
    c1Trigger.FireTimeAfter 0 (1000 * second + 15 * second) = 0 ∧
    c1Trigger.FireTimeAfter 0 (1000 * second + 25 * second) = 0 := by
  refine ⟨?_, ?_, ?_, ?_⟩ <;> decide

/-- C7: `FinalFireTime` behaves as claimed, for every simple trigger
whose `repeatInterval` is at least one millisecond and whose `endTime`,
when set, is not before `startTime` (the invariant the setters
enforce): (a) `repeatCount = 0` gives `startTime`; (b) the indefinite
sentinel gives absent without an `endTime` and otherwise
`FireTimeBefore(endTime)`, which equals
`startTime + floor((endTime − startTime)/repeatInterval) · repeatInterval`;
(c) a finite positive `repeatCount` gives the candidate
`startTime + repeatCount · repeatInterval` when `endTime` is unset or
the candidate precedes it, else `FireTimeBefore(endTime)`. -/
theorem c7_finalFireTime_cases (t : SimpleTrigger)
    (hi : millisecond ≤ t.repeatInterval)
    (hse : t.endTime ≠ 0 → t.startTime ≤ t.endTime) :
    (t.repeatCount = 0 → t.FinalFireTime = t.startTime) ∧
    (t.repeatCount = REPEAT_INDEFINITELY →
      (t.endTime = 0 → t.FinalFireTime = 0) ∧
      (t.endTime ≠ 0 →
        t.FinalFireTime = t.FireTimeBefore t.endTime ∧
        t.FireTimeBefore t.endTime =
          t.startTime + (t.endTime - t.startTime) / t.repeatInterval * t.repeatInterval)) ∧
    (0 < t.repeatCount →
      ((t.endTime = 0 ∨ t.startTime + t.repeatCount * t.repeatInterval < t.endTime) →
        t.FinalFireTime = t.startTime + t.repeatCount * t.repeatInterval) ∧
      (t.endTime ≠ 0 → t.endTime ≤ t.startTime + t.repeatCount * t.repeatInterval →
        t.FinalFireTime = t.FireTimeBefore t.endTime)) := by
  have hipos : (0 : Int) < t.repeatInterval := by
    have : (0 : Int) < millisecond := by decide
    omega
  have hfb : t.endTime ≠ 0 →
      t.FireTimeBefore t.endTime =
        t.startTime + (t.endTime - t.startTime) / t.repeatInterval * t.repeatInterval := by
    intro he
    have hle := hse he
    rw [SimpleTrigger.FireTimeBefore, SimpleTrigger.computeNumTimesFiredBetween]
    rw [if_neg (by omega), if_neg (by omega), goDiv,
      Int.tdiv_eq_ediv (by omega) (by omega)]
  refine ⟨?_, ?_, ?_⟩
  · intro h0
    rw [SimpleTrigger.FinalFireTime, if_pos h0]
  · intro hind
    have h0 : t.repeatCount ≠ 0 := by rw [hind]; decide
    refine ⟨?_, ?_⟩
    · intro he
      rw [SimpleTrigger.FinalFireTime, if_neg h0, if_pos hind, if_pos he]
    · intro he
      refine ⟨?_, hfb he⟩
      rw [SimpleTrigger.FinalFireTime, if_neg h0, if_pos hind, if_neg he]
  · intro hpos
    have h0 : t.repeatCount ≠ 0 := by omega
    have hind : t.repeatCount ≠ REPEAT_INDEFINITELY := by
      rw [REPEAT_INDEFINITELY]; omega
    refine ⟨?_, ?_⟩
    · intro hcand
      rw [SimpleTrigger.FinalFireTime, if_neg h0, if_neg hind, if_pos hcand]
    · intro he hle
      rw [SimpleTrigger.FinalFireTime, if_neg h0, if_neg hind,
        if_neg (by push_neg; exact ⟨he, by omega⟩)]

/-- Witness for C7 at the spec's concrete instance: `repeatCount = 3`,
`repeatInterval = 1h`, no `endTime`, giving `T + 3h`. -/
theorem c7_finalFireTime_cases_witness :
    millisecond ≤ hour ∧
    ({ startTime := 1000 * second, endTime := 0, repeatInterval := hour,
       repeatCount := 3, timesTriggered := 0,
       complete := false : SimpleTrigger }).FinalFireTime =
      1000 * second + 3 * hour := by
  refine ⟨by decide, ?_⟩
  have h := c7_finalFireTime_cases
    { startTime := 1000 * second, endTime := 0, repeatInterval := hour,
      repeatCount := 3, timesTriggered := 0, complete := false }
    (by decide) (by intro h; simp at h)
  exact (h.2.2 (by decide)).1 (Or.inl rfl)

end Quartz
